import Mathlib

/-!
A shallow embedding of `trie.py` (`codesparkle/useful`).

This file embeds the `Trie` class of `src/trie/trie.py` and its node type
`_Entry` into Lean 4 and proves the specification claims about it.

Modelling conventions:

* `_Entry` is a Python `dict` subclass whose dictionary part maps a symbol to
  a child entry and whose optional `value` attribute is the value slot
  (`has_value()` tests the presence of the `value` attribute).  We embed it as the nested
  inductive `Entry`, with the children as an association list — Python dicts
  preserve insertion order, an association list does the same — and the value
  slot as an `Option V` (the tagged "set / unset" state of the attribute).
* A Python key is an iterable of hashable symbols; we embed it as `List α`
  with `[DecidableEq α]`.
* In-place mutation through a node reference obtained from `_find` is embedded
  by whole-tree rebuilding functions (`createPath`, `setAt`, `clearAt`) acting
  on the path that `_find` walks.
* `raise KeyError` is embedded as an `Option`/`none` result of the operation.
-/

set_option linter.unusedSectionVars false
set_option linter.unnecessarySeqFocus false

namespace TrieSpec

/-- Embedding of `_Entry`: the children dictionary (an insertion-ordered
association list, as a Python `dict` is) together with the optional `value`
attribute (`none` = attribute unset, i.e. internal branch point only). -/
inductive Entry (α V : Type) : Type where
  | mk : List (α × Entry α V) → Option V → Entry α V
  deriving Repr

variable {α V : Type} [DecidableEq α]

/-- The children dictionary of an entry. -/
def Entry.children : Entry α V → List (α × Entry α V)
  | .mk cs _ => cs

/-- The value slot of an entry (`none` when the `value` attribute is unset). -/
def Entry.value : Entry α V → Option V
  | .mk _ v => v

/-- Embedding of `_Entry.has_value`: the `hasattr` test for the `value` attribute. -/
def Entry.hasValue (e : Entry α V) : Bool :=
  e.value.isSome

/-- A fresh `_Entry()`: empty dictionary, `value` attribute unset. -/
def emptyEntry : Entry α V := .mk [] none

/-- Python `entry[char]` / `char in entry`: first-match lookup in the
children dictionary. -/
def lookupChild : List (α × Entry α V) → α → Option (Entry α V)
  | [], _ => none
  | (a, e) :: rest, c => if a = c then some e else lookupChild rest c

/-- Python `entry[char] = child`: replace in place if the symbol is present
(keeping its position, as a dict does), otherwise append at the end. -/
def insertChild : List (α × Entry α V) → α → Entry α V → List (α × Entry α V)
  | [], c, x => [(c, x)]
  | (a, e) :: rest, c, x =>
    if a = c then (a, x) :: rest else (a, e) :: insertChild rest c x

/-- Embedding of `Trie._find(key, create=False)`: walk the key symbol by
symbol; `none` embeds the raised `KeyError` when a child edge is missing. -/
def findEntry : Entry α V → List α → Option (Entry α V)
  | e, [] => some e
  | e, c :: k =>
    match lookupChild e.children c with
    | some ch => findEntry ch k
    | none => none

/-- Embedding of the tree mutation performed by `Trie._find(key, create=True)`:
every missing child edge along the key is populated with a fresh `_Entry()`.
The function returns the whole updated tree. -/
def createPath : Entry α V → List α → Entry α V
  | e, [] => e
  | .mk cs v, c :: k =>
    .mk (insertChild cs c (createPath ((lookupChild cs c).getD emptyEntry) k)) v

/-- Embedding of `entry.value = value` on the entry returned by
`_find(key, create=True)`: create the path and set the slot of the destination. -/
def setAt : Entry α V → List α → V → Entry α V
  | .mk cs _, [], v => .mk cs (some v)
  | .mk cs v0, c :: k, v =>
    .mk (insertChild cs c (setAt ((lookupChild cs c).getD emptyEntry) k v)) v0

/-- Embedding of `del entry.value` on the entry returned by `_find(key)`:
clear the slot of the destination (the path is left untouched when absent, which
`__delitem__` never reaches because `_find` has already raised). -/
def clearAt : Entry α V → List α → Entry α V
  | .mk cs _, [] => .mk cs none
  | .mk cs v, c :: k =>
    match lookupChild cs c with
    | some ch => .mk (insertChild cs c (clearAt ch k)) v
    | none => .mk cs v

/-- The value found at a path: the slot of the entry `_find` reaches. -/
def getValueAt (e : Entry α V) (k : List α) : Option V :=
  (findEntry e k).bind Entry.value

/-- Number of reachable entries with a set value slot (the quantity the
`_length` bookkeeping is meant to track). -/
def countValues : Entry α V → Nat
  | .mk cs v => (if v.isSome then 1 else 0) + countChildren cs
where
  /-- Sum of `countValues` over a children dictionary. -/
  countChildren : List (α × Entry α V) → Nat
  | [] => 0
  | (_, e) :: rest => countValues e + countChildren rest

/-- Number of nodes of the subtree; the termination measure of the
enumeration loop of `items`. -/
def Entry.size : Entry α V → Nat
  | .mk cs _ => 1 + sizeChildren cs
where
  /-- Sum of sizes over a children dictionary. -/
  sizeChildren : List (α × Entry α V) → Nat
  | [] => 0
  | (_, e) :: rest => e.size + sizeChildren rest

/-- Embedding of the `Trie` object: the `_root` entry and the `_length`
counter. -/
structure Trie (α V : Type) : Type where
  root : Entry α V
  length : Nat
  deriving Repr

/-- A `Trie()` built with no initial items: fresh root, length `0`. -/
def emptyTrie : Trie α V := ⟨emptyEntry, 0⟩

/-- Embedding of `Trie.__getitem__`: `_find(key)` then return the slot if
set; `none` embeds the raised `KeyError` (missing path or unset slot). -/
def getItem (t : Trie α V) (k : List α) : Option V :=
  match findEntry t.root k with
  | some entry => if entry.hasValue then entry.value else none
  | none => none

/-- Embedding of `__contains__` as `MutableMapping` derives it: try
`__getitem__`, a `KeyError` means `False`. -/
def containsKey (t : Trie α V) (k : List α) : Bool :=
  (getItem t k).isSome

/-- Embedding of `Trie._set_entry` fused with the entry location: if the
destination slot (inside `root1`) is unset, increment `_length`; set the
slot to `value`. `root1` is the tree already mutated by
`_find(key, create=True)`. -/
def setEntry (root1 : Entry α V) (len : Nat) (k : List α) (v : V) : Trie α V :=
  match findEntry root1 k with
  | some entry => ⟨setAt root1 k v, if entry.hasValue then len else len + 1⟩
  | none => ⟨setAt root1 k v, len + 1⟩

/-- Embedding of `Trie.__setitem__`: `entry = _find(key, create=True)` then
`_set_entry(entry, value)`. -/
def setItem (t : Trie α V) (k : List α) (v : V) : Trie α V :=
  setEntry (createPath t.root k) t.length k v

/-- Embedding of `Trie.__delitem__`: `_find(key)` (whose `KeyError`
propagates), then if the slot is set clear it and decrement `_length`,
otherwise raise `KeyError`. `none` embeds the raised error. -/
def delItem (t : Trie α V) (k : List α) : Option (Trie α V) :=
  match findEntry t.root k with
  | some entry =>
    if entry.hasValue then some ⟨clearAt t.root k, t.length - 1⟩ else none
  | none => none

/-- Embedding of `Trie.transform`: `entry = _find(key, create=True)`;
`value = value_selector(entry.value if entry.has_value() else default)`;
`_set_entry(entry, value)`. -/
def transform (t : Trie α V) (k : List α) (sel : V → V) (dflt : V) : Trie α V :=
  let root1 := createPath t.root k
  match findEntry root1 k with
  | some entry =>
    setEntry root1 t.length k (sel (if entry.hasValue then entry.value.getD dflt else dflt))
  | none => t

/-- The trie state at the point of `Trie.transform` where
`entry = self._find(key, create=True)` has completed but `value_selector`
has not returned: the path is created, no slot is written, `_length` is
untouched.  This is the state the caller observes when the updater raises. -/
def transformInterrupted (t : Trie α V) (k : List α) : Trie α V :=
  ⟨createPath t.root k, t.length⟩

/-- Total size of the entries on a work list; decreases by one at each
iteration of the `while stack` loop of `Trie.items`. -/
def stackMeasure (st : List (List α × Entry α V)) : Nat :=
  (st.map fun p => p.2.size).sum

omit [DecidableEq α] in
theorem size_mk (cs : List (α × Entry α V)) (v : Option V) :
    (Entry.mk cs v).size = 1 + (cs.map fun p => p.2.size).sum := by
  rw [Entry.size]
  congr 1
  induction cs with
  | nil => rfl
  | cons p rest ih => cases p; simp [Entry.size.sizeChildren, ih]

/-- Embedding of the `while stack:` loop of `Trie.items`.  The head of the
list is the top of the stack (`stack.pop()` takes it); `stack.append` over
the children in dictionary order puts them on the stack so that the last
child is popped first, hence `children.reverse ++ rest`.  The own
pair of the entry, if its slot is set, is yielded before its children are pushed. -/
def itemsLoop : List (List α × Entry α V) → List (List α × V)
  | [] => []
  | (pfx, .mk cs v) :: rest =>
    (match v with | some x => [(pfx, x)] | none => []) ++
      itemsLoop (((cs.map fun p => (pfx ++ [p.1], p.2)).reverse) ++ rest)
termination_by st => stackMeasure st
decreasing_by
  simp only [stackMeasure, List.map_append, List.map_reverse, List.sum_append,
    List.sum_reverse, List.map_map, Function.comp_def, List.map_cons,
    List.sum_cons, size_mk]
  omega

/-- Embedding of `Trie.items(prefix)`: locate the start entry with
`_find(prefix)`; on `KeyError` the generator executes `raise StopIteration`,
which PEP 479 (Python ≥ 3.7) turns into a `RuntimeError` for the consumer —
embedded as `none`.  Otherwise run the stack loop seeded with
`(prefix, start)`. -/
def items (t : Trie α V) (pfx : List α) : Option (List (List α × V)) :=
  match findEntry t.root pfx with
  | some start => some (itemsLoop [(pfx, start)])
  | none => none

/-- Embedding of `Trie.keys(prefix)`: the `items` enumeration projected to
the key component. -/
def keysOf (t : Trie α V) (pfx : List α) : Option (List (List α)) :=
  (items t pfx).map (List.map Prod.fst)

/-- The depth-first enumeration order the spec describes: the pair of the
entry itself first, then the subtrees of its children, later-inserted children
first (the LIFO work-list discipline).  `itemsLoop` is proved to produce
exactly this sequence. -/
def visit : List α → Entry α V → List (List α × V)
  | pfx, .mk cs v =>
    (match v with | some x => [(pfx, x)] | none => []) ++
      visitRev pfx cs
where
  /-- Concatenation of the visits of a children dictionary, last child
  first. -/
  visitRev : List α → List (α × Entry α V) → List (List α × V)
  | _, [] => []
  | pfx, (c, e) :: rest => visitRev pfx rest ++ visit (pfx ++ [c]) e

/-- Proposition that `(k, v)` is a key/value pair of the (sub)tree `e`: the traversal path
`k` exists and ends at an entry whose slot holds `v`. -/
def mapsTo (e : Entry α V) (k : List α) (v : V) : Prop :=
  getValueAt e k = some v

/-- Well-formedness of the embedded children dictionaries: a Python dict
cannot hold the same symbol twice, so every children association list in
the tree has pairwise-distinct symbols. -/
def Entry.wf : Entry α V → Bool
  | .mk cs _ => decide (cs.map Prod.fst).Nodup && wfChildren cs
where
  /-- All entries of a children dictionary are well-formed. -/
  wfChildren : List (α × Entry α V) → Bool
  | [] => true
  | (_, e) :: rest => e.wf && wfChildren rest

/-- The doctest trie `Trie(she=1, sells=5, sea=10, shells=19, today=5)`:
`__init__` feeds the keyword arguments, in order, to `update`, which calls
`__setitem__` for each. -/
def exampleTrie : Trie Char Int :=
  setItem (setItem (setItem (setItem (setItem emptyTrie
    "she".toList 1) "sells".toList 5) "sea".toList 10) "shells".toList 19)
    "today".toList 5

/-! ## Basic lemmas about the node model -/

omit [DecidableEq α] in
@[simp] theorem children_mk (cs : List (α × Entry α V)) (v : Option V) :
    (Entry.mk cs v).children = cs := rfl

omit [DecidableEq α] in
@[simp] theorem value_mk (cs : List (α × Entry α V)) (v : Option V) :
    (Entry.mk cs v).value = v := rfl

omit [DecidableEq α] in
@[simp] theorem hasValue_mk (cs : List (α × Entry α V)) (v : Option V) :
    (Entry.mk cs v).hasValue = v.isSome := rfl

omit [DecidableEq α] in
theorem size_pos (e : Entry α V) : 0 < e.size := by
  cases e with
  | mk cs v => rw [size_mk]; omega

omit [DecidableEq α] in
theorem size_le_of_mem {cs : List (α × Entry α V)} {p : α × Entry α V}
    (h : p ∈ cs) : p.2.size ≤ Entry.size.sizeChildren cs := by
  induction cs with
  | nil => cases h
  | cons q rest ih =>
    rcases List.mem_cons.1 h with h | h
    · subst h
      cases p with
      | mk a e => simp only [Entry.size.sizeChildren]; omega
    · have := ih h
      cases q with
      | mk a e => simp only [Entry.size.sizeChildren]; omega

omit [DecidableEq α] in
theorem sizeChildren_eq (cs : List (α × Entry α V)) :
    Entry.size.sizeChildren cs = (cs.map fun p => p.2.size).sum := by
  induction cs with
  | nil => rfl
  | cons q rest ih => cases q; simp [Entry.size.sizeChildren, ih]

omit [DecidableEq α] in
/-- Induction principle for the nested inductive `Entry`: to prove `P` of an
entry it suffices to prove it for `mk cs v` assuming `P` of every child. -/
theorem entry_ind {P : Entry α V → Prop}
    (h : ∀ cs v, (∀ p ∈ cs, P p.2) → P (.mk cs v)) : ∀ e, P e := by
  have aux : ∀ n (e : Entry α V), e.size ≤ n → P e := by
    intro n
    induction n with
    | zero => intro e he; have := size_pos e; omega
    | succ n ih =>
      intro e he
      cases e with
      | mk cs v =>
        refine h cs v fun p hp => ih p.2 ?_
        have h1 := size_le_of_mem hp
        rw [size_mk] at he
        rw [sizeChildren_eq] at h1
        omega
  exact fun e => aux e.size e le_rfl

theorem lookupChild_insertChild_self (cs : List (α × Entry α V)) (c : α)
    (x : Entry α V) : lookupChild (insertChild cs c x) c = some x := by
  induction cs with
  | nil => simp [insertChild, lookupChild]
  | cons q rest ih =>
    cases q with
    | mk a e =>
      by_cases h : a = c
      · simp [insertChild, lookupChild, h]
      · simp [insertChild, lookupChild, h, ih]

theorem lookupChild_insertChild_ne (cs : List (α × Entry α V)) {c d : α}
    (x : Entry α V) (h : d ≠ c) :
    lookupChild (insertChild cs c x) d = lookupChild cs d := by
  have hcd : c ≠ d := Ne.symm h
  induction cs with
  | nil => simp [insertChild, lookupChild, hcd]
  | cons q rest ih =>
    cases q with
    | mk a e =>
      by_cases ha : a = c
      · subst ha
        simp [insertChild, lookupChild, hcd]
      · by_cases hd : a = d
        · simp [insertChild, lookupChild, ha, hd, h]
        · simp [insertChild, lookupChild, ha, hd, ih]

theorem mem_of_lookupChild {cs : List (α × Entry α V)} {c : α}
    {ch : Entry α V} (h : lookupChild cs c = some ch) : (c, ch) ∈ cs := by
  induction cs with
  | nil => simp [lookupChild] at h
  | cons q rest ih =>
    cases q with
    | mk a e =>
      by_cases ha : a = c
      · subst ha
        simp only [lookupChild, if_true, eq_self_iff_true,
          Option.some_inj] at h
        subst h
        exact List.mem_cons_self _ _
      · simp only [lookupChild, if_neg ha] at h
        exact List.mem_cons_of_mem _ (ih h)

theorem lookupChild_of_mem {cs : List (α × Entry α V)} {c : α}
    {ch : Entry α V} (hnd : (cs.map Prod.fst).Nodup) (h : (c, ch) ∈ cs) :
    lookupChild cs c = some ch := by
  induction cs with
  | nil => cases h
  | cons q rest ih =>
    cases q with
    | mk a e =>
      simp only [List.map_cons, List.nodup_cons] at hnd
      rcases List.mem_cons.1 h with h1 | h1
      · rw [show a = c from congrArg Prod.fst h1.symm,
          show e = ch from congrArg Prod.snd h1.symm]
        simp [lookupChild]
      · have ha : a ≠ c := by
          intro hac
          subst hac
          exact hnd.1 (List.mem_map.2 ⟨(a, ch), h1, rfl⟩)
        simp [lookupChild, ha, ih hnd.2 h1]

/-! ## The traversal, set, clear and create operations on paths -/

theorem getItem_eq (t : Trie α V) (k : List α) :
    getItem t k = getValueAt t.root k := by
  unfold getItem getValueAt
  cases h : findEntry t.root k with
  | none => rfl
  | some e =>
    cases e with
    | mk cs v => cases v <;> simp [Entry.hasValue]

@[simp] theorem getValueAt_nil (e : Entry α V) : getValueAt e [] = e.value := rfl

theorem getValueAt_cons (e : Entry α V) (c : α) (k : List α) :
    getValueAt e (c :: k) =
      match lookupChild e.children c with
      | some ch => getValueAt ch k
      | none => none := by
  cases h : lookupChild e.children c with
  | some ch => simp [getValueAt, findEntry, h]
  | none => simp [getValueAt, findEntry, h]

theorem getValueAt_setAt_self (e : Entry α V) (k : List α) (v : V) :
    getValueAt (setAt e k v) k = some v := by
  induction k generalizing e with
  | nil => cases e; simp [setAt]
  | cons c k ih =>
    cases e with
    | mk cs v0 =>
      simp only [setAt, getValueAt_cons, children_mk,
        lookupChild_insertChild_self]
      exact ih _

theorem getValueAt_setAt_empty (k p : List α) (v : V) (h : p ≠ k) :
    getValueAt (setAt (emptyEntry : Entry α V) k v) p = none := by
  induction k generalizing p with
  | nil =>
    cases p with
    | nil => exact absurd rfl h
    | cons d p => simp [setAt, emptyEntry, getValueAt_cons, lookupChild]
  | cons c k ih =>
    cases p with
    | nil => simp [setAt, emptyEntry]
    | cons d p =>
      simp only [emptyEntry, setAt, getValueAt_cons, children_mk,
        lookupChild, insertChild]
      by_cases hdc : c = d
      · subst hdc
        simp only [if_pos rfl]
        exact ih p fun hp => h (by rw [hp])
      · simp [hdc]

theorem getValueAt_setAt_ne (e : Entry α V) (k p : List α) (v : V)
    (h : p ≠ k) : getValueAt (setAt e k v) p = getValueAt e p := by
  induction k generalizing e p with
  | nil =>
    cases p with
    | nil => exact absurd rfl h
    | cons d p => cases e; simp [setAt, getValueAt_cons]
  | cons c k ih =>
    cases e with
    | mk cs v0 =>
      cases p with
      | nil => simp [setAt]
      | cons d p =>
        simp only [setAt, getValueAt_cons, children_mk]
        by_cases hdc : d = c
        · subst hdc
          simp only [lookupChild_insertChild_self]
          cases hl : lookupChild cs d with
          | some ch =>
            simp only [hl, Option.getD_some]
            exact ih ch p fun hp => h (by rw [hp])
          | none =>
            simp only [hl, Option.getD_none]
            exact getValueAt_setAt_empty k p v fun hp => h (by rw [hp])
        · simp [lookupChild_insertChild_ne _ _ hdc]

theorem getValueAt_createPath_empty (k p : List α) :
    getValueAt (createPath (emptyEntry : Entry α V) k) p = none := by
  induction k generalizing p with
  | nil =>
    cases p with
    | nil => rfl
    | cons d p => simp [createPath, emptyEntry, getValueAt_cons, lookupChild]
  | cons c k ih =>
    cases p with
    | nil => simp [createPath, emptyEntry]
    | cons d p =>
      simp only [emptyEntry, createPath, getValueAt_cons, children_mk,
        lookupChild, insertChild]
      by_cases hdc : c = d
      · subst hdc
        simp only [if_pos rfl]
        exact ih p
      · simp [hdc]

theorem getValueAt_createPath (e : Entry α V) (k p : List α) :
    getValueAt (createPath e k) p = getValueAt e p := by
  induction k generalizing e p with
  | nil => cases e <;> rfl
  | cons c k ih =>
    cases e with
    | mk cs v0 =>
      cases p with
      | nil => simp [createPath]
      | cons d p =>
        simp only [createPath, getValueAt_cons, children_mk]
        by_cases hdc : d = c
        · subst hdc
          simp only [lookupChild_insertChild_self]
          cases hl : lookupChild cs d with
          | some ch => simp only [hl, Option.getD_some]; exact ih ch p
          | none =>
            simp only [hl, Option.getD_none]
            exact getValueAt_createPath_empty k p
        · simp [lookupChild_insertChild_ne _ _ hdc]

theorem findEntry_createPath_isSome (e : Entry α V) (k : List α) :
    (findEntry (createPath e k) k).isSome := by
  induction k generalizing e with
  | nil => cases e <;> rfl
  | cons c k ih =>
    cases e with
    | mk cs v0 =>
      simp only [createPath, findEntry, children_mk,
        lookupChild_insertChild_self]
      exact ih _

/-- The destination entry reached by `_find(key, create=True)` exists and
its value slot holds exactly what the original tree held at that path. -/
theorem findEntry_createPath (e : Entry α V) (k : List α) :
    ∃ d, findEntry (createPath e k) k = some d ∧
      d.value = getValueAt e k := by
  cases hd : findEntry (createPath e k) k with
  | none =>
    have := findEntry_createPath_isSome e k
    rw [hd] at this
    cases this
  | some d =>
    refine ⟨d, rfl, ?_⟩
    have h1 := getValueAt_createPath e k k
    unfold getValueAt at h1 ⊢
    rw [hd] at h1
    simpa using h1

theorem getValueAt_clearAt_self (e : Entry α V) (k : List α) :
    getValueAt (clearAt e k) k = none := by
  induction k generalizing e with
  | nil => cases e; rfl
  | cons c k ih =>
    cases e with
    | mk cs v0 =>
      simp only [clearAt]
      cases hl : lookupChild cs c with
      | some ch =>
        simp only [getValueAt_cons, children_mk,
          lookupChild_insertChild_self]
        exact ih ch
      | none => simp [getValueAt_cons, hl]

theorem getValueAt_clearAt_ne (e : Entry α V) (k p : List α) (h : p ≠ k) :
    getValueAt (clearAt e k) p = getValueAt e p := by
  induction k generalizing e p with
  | nil =>
    cases p with
    | nil => exact absurd rfl h
    | cons d p => cases e; simp [clearAt, getValueAt_cons]
  | cons c k ih =>
    cases e with
    | mk cs v0 =>
      simp only [clearAt]
      cases hl : lookupChild cs c with
      | some ch =>
        cases p with
        | nil => simp
        | cons d p =>
          simp only [getValueAt_cons, children_mk]
          by_cases hdc : d = c
          · subst hdc
            simp only [lookupChild_insertChild_self, hl]
            exact ih ch p fun hp => h (by rw [hp])
          · simp [lookupChild_insertChild_ne _ _ hdc]
      | none => rfl

/-! ## Counting set value slots -/

theorem countChildren_insertChild_some {cs : List (α × Entry α V)} {c : α}
    {ch : Entry α V} (x : Entry α V) (h : lookupChild cs c = some ch) :
    countValues.countChildren (insertChild cs c x) + countValues ch =
      countValues.countChildren cs + countValues x := by
  induction cs with
  | nil => simp [lookupChild] at h
  | cons q rest ih =>
    cases q with
    | mk a e =>
      by_cases ha : a = c
      · subst ha
        simp only [lookupChild, if_true, eq_self_iff_true,
          Option.some_inj] at h
        subst h
        simp only [insertChild, if_pos rfl, countValues.countChildren]
        omega
      · simp only [lookupChild, if_neg ha] at h
        simp only [insertChild, if_neg ha, countValues.countChildren]
        have := ih h
        omega

theorem countChildren_insertChild_none {cs : List (α × Entry α V)} {c : α}
    (x : Entry α V) (h : lookupChild cs c = none) :
    countValues.countChildren (insertChild cs c x) =
      countValues.countChildren cs + countValues x := by
  induction cs with
  | nil => simp [insertChild, countValues.countChildren]
  | cons q rest ih =>
    cases q with
    | mk a e =>
      by_cases ha : a = c
      · subst ha
        simp [lookupChild] at h
      · simp only [lookupChild, if_neg ha] at h
        simp only [insertChild, if_neg ha, countValues.countChildren]
        have := ih h
        omega

theorem countValues_createPath_empty (k : List α) :
    countValues (createPath (emptyEntry : Entry α V) k) = 0 := by
  induction k with
  | nil => rfl
  | cons c k ih =>
    show countValues (createPath (Entry.mk [] none) (c :: k)) = 0
    simp only [createPath, lookupChild, Option.getD_none, insertChild,
      countValues, countValues.countChildren]
    simp [ih]

theorem countValues_createPath (e : Entry α V) (k : List α) :
    countValues (createPath e k) = countValues e := by
  induction k generalizing e with
  | nil => cases e <;> rfl
  | cons c k ih =>
    cases e with
    | mk cs v0 =>
      simp only [createPath, countValues]
      cases hl : lookupChild cs c with
      | some ch =>
        simp only [hl, Option.getD_some]
        have h1 := countChildren_insertChild_some (createPath ch k) hl
        have h2 := ih ch
        omega
      | none =>
        simp only [hl, Option.getD_none]
        have h1 := countChildren_insertChild_none
          (x := createPath emptyEntry k) (c := c) hl
        have h2 := countValues_createPath_empty (V := V) k
        rw [h2] at h1
        omega

theorem countValues_setAt_empty (k : List α) (v : V) :
    countValues (setAt (emptyEntry : Entry α V) k v) = 1 := by
  induction k with
  | nil => rfl
  | cons c k ih =>
    show countValues (setAt (Entry.mk [] none) (c :: k) v) = 1
    simp only [setAt, lookupChild, Option.getD_none, insertChild,
      countValues, countValues.countChildren]
    simp [ih]

theorem countValues_setAt (e : Entry α V) (k : List α) (v : V) :
    countValues (setAt e k v) +
      (if (getValueAt e k).isSome then 1 else 0) = countValues e + 1 := by
  induction k generalizing e with
  | nil =>
    cases e with
    | mk cs v0 => cases v0 <;> simp [setAt, countValues] <;> omega
  | cons c k ih =>
    cases e with
    | mk cs v0 =>
      simp only [setAt, countValues, getValueAt_cons, children_mk]
      cases hl : lookupChild cs c with
      | some ch =>
        simp only [hl, Option.getD_some]
        have h1 := countChildren_insertChild_some (setAt ch k v) hl
        have h2 := ih ch
        split at h2 <;> split <;> omega
      | none =>
        simp only [hl, Option.getD_none, Option.isSome_none, Bool.false_eq_true,
          if_false]
        have h1 := countChildren_insertChild_none
          (x := setAt emptyEntry k v) (c := c) hl
        have h2 := countValues_setAt_empty (V := V) k v
        rw [h2] at h1
        omega

theorem countValues_clearAt (e : Entry α V) (k : List α)
    (h : (getValueAt e k).isSome) :
    countValues (clearAt e k) + 1 = countValues e := by
  induction k generalizing e with
  | nil =>
    cases e with
    | mk cs v0 =>
      cases v0 with
      | some x => simp [clearAt, countValues]; omega
      | none => simp at h
  | cons c k ih =>
    cases e with
    | mk cs v0 =>
      rw [getValueAt_cons] at h
      simp only [clearAt, children_mk] at h ⊢
      cases hl : lookupChild cs c with
      | some ch =>
        rw [hl] at h
        simp only [countValues]
        have h1 := countChildren_insertChild_some (clearAt ch k) hl
        have h2 := ih ch h
        omega
      | none => rw [hl] at h; simp at h

/-! ## The enumeration loop is the depth-first visit -/

omit [DecidableEq α] in
theorem stackMeasure_append (a b : List (List α × Entry α V)) :
    stackMeasure (a ++ b) = stackMeasure a + stackMeasure b := by
  simp [stackMeasure]

omit [DecidableEq α] in
theorem stackMeasure_cons (pfx : List α) (e : Entry α V)
    (rest : List (List α × Entry α V)) :
    stackMeasure ((pfx, e) :: rest) = e.size + stackMeasure rest := by
  simp [stackMeasure]

omit [DecidableEq α] in
theorem stackMeasure_push (pfx : List α) (cs : List (α × Entry α V)) :
    stackMeasure ((cs.map fun p => (pfx ++ [p.1], p.2)).reverse) =
      (cs.map fun p => p.2.size).sum := by
  simp [stackMeasure, List.map_reverse, List.sum_reverse, List.map_map,
    Function.comp_def]

omit [DecidableEq α] in
theorem itemsLoop_nil : itemsLoop ([] : List (List α × Entry α V)) = [] := by
  rw [itemsLoop.eq_def]

omit [DecidableEq α] in
/-- One step of the `while stack:` loop, as an equation. -/
theorem itemsLoop_cons (pfx : List α) (cs : List (α × Entry α V))
    (v : Option V) (rest : List (List α × Entry α V)) :
    itemsLoop ((pfx, Entry.mk cs v) :: rest) =
      (match v with | some x => [(pfx, x)] | none => []) ++
        itemsLoop (((cs.map fun p => (pfx ++ [p.1], p.2)).reverse) ++ rest) := by
  rw [itemsLoop.eq_def]

omit [DecidableEq α] in
/-- Segments of the work list are processed independently and in order. -/
theorem itemsLoop_append (a b : List (List α × Entry α V)) :
    itemsLoop (a ++ b) = itemsLoop a ++ itemsLoop b := by
  have aux : ∀ n (a b : List (List α × Entry α V)), stackMeasure a ≤ n →
      itemsLoop (a ++ b) = itemsLoop a ++ itemsLoop b := by
    intro n
    induction n with
    | zero =>
      intro a b ha
      cases a with
      | nil => simp [itemsLoop_nil]
      | cons q rest =>
        cases q with
        | mk pfx e =>
          rw [stackMeasure_cons] at ha
          have := size_pos e
          omega
    | succ n ih =>
      intro a b ha
      cases a with
      | nil => simp [itemsLoop_nil]
      | cons q rest =>
        cases q with
        | mk pfx e =>
          cases e with
          | mk cs v =>
            have hrev : stackMeasure
                ((cs.map fun p => (pfx ++ [p.1], p.2)).reverse) ≤ n := by
              rw [stackMeasure_cons, size_mk] at ha
              rw [stackMeasure_push]
              omega
            have hrest : stackMeasure rest ≤ n := by
              rw [stackMeasure_cons] at ha
              have := size_pos (Entry.mk cs v)
              omega
            rw [List.cons_append, itemsLoop_cons, itemsLoop_cons,
              List.append_assoc, ih _ (rest ++ b) hrev, ih _ b hrest,
              ih _ rest hrev]
            simp
  exact aux (stackMeasure a) a b le_rfl

/-- The explicit-stack loop seeded with a single entry produces exactly the
recursive depth-first visit of that entry. -/
theorem itemsLoop_single : ∀ (e : Entry α V) (pfx : List α),
    itemsLoop [(pfx, e)] = visit pfx e := by
  refine entry_ind (fun cs v ihm => ?_)
  intro pfx
  rw [itemsLoop_cons, List.append_nil]
  have key : ∀ cs' : List (α × Entry α V), (∀ p ∈ cs', ∀ pf,
      itemsLoop [(pf, p.2)] = visit pf p.2) →
      itemsLoop ((cs'.map fun p => (pfx ++ [p.1], p.2)).reverse) =
        visit.visitRev pfx cs' := by
    intro cs'
    induction cs' with
    | nil => intro _; simp [itemsLoop_nil, visit.visitRev]
    | cons q rest ihl =>
      intro hmem
      cases q with
      | mk c e0 =>
        simp only [List.map_cons, List.reverse_cons, itemsLoop_append]
        rw [ihl fun p hp => hmem p (List.mem_cons_of_mem _ hp)]
        rw [hmem (c, e0) (List.mem_cons_self _ _) (pfx ++ [c])]
        rfl
  rw [key cs ihm]
  rfl

/-- Behaviour of `items` on a prefix whose path exists. -/
theorem items_eq_visit {t : Trie α V} {pfx : List α} {start : Entry α V}
    (h : findEntry t.root pfx = some start) :
    items t pfx = some (visit pfx start) := by
  simp only [items, h, itemsLoop_single]

/-! ## Well-formedness of the children dictionaries -/

theorem wfChildren_iff (cs : List (α × Entry α V)) :
    Entry.wf.wfChildren cs = true ↔ ∀ p ∈ cs, p.2.wf = true := by
  induction cs with
  | nil => simp [Entry.wf.wfChildren]
  | cons q rest ih =>
    cases q with
    | mk a e =>
      simp only [Entry.wf.wfChildren, Bool.and_eq_true, ih,
        List.mem_cons]
      constructor
      · rintro ⟨h1, h2⟩ p hp
        rcases hp with hp | hp
        · subst hp; exact h1
        · exact h2 p hp
      · intro h
        exact ⟨h (a, e) (Or.inl rfl), fun p hp => h p (Or.inr hp)⟩

theorem wf_mk_iff (cs : List (α × Entry α V)) (v : Option V) :
    (Entry.mk cs v).wf = true ↔
      (cs.map Prod.fst).Nodup ∧ ∀ p ∈ cs, p.2.wf = true := by
  simp [Entry.wf, Bool.and_eq_true, wfChildren_iff, decide_eq_true_eq]

theorem map_fst_insertChild_some {cs : List (α × Entry α V)} {c : α}
    {ch : Entry α V} (x : Entry α V) (h : lookupChild cs c = some ch) :
    (insertChild cs c x).map Prod.fst = cs.map Prod.fst := by
  induction cs with
  | nil => simp [lookupChild] at h
  | cons q rest ih =>
    cases q with
    | mk a e =>
      by_cases ha : a = c
      · subst ha; simp [insertChild]
      · simp only [lookupChild, if_neg ha] at h
        simp [insertChild, ha, ih h]

theorem mem_insertChild {cs : List (α × Entry α V)} {c : α}
    {x p : α × Entry α V} (h : p ∈ insertChild cs c x.2) :
    p ∈ cs ∨ p = (c, x.2) := by
  induction cs with
  | nil =>
    simp only [insertChild, List.mem_singleton] at h
    exact Or.inr h
  | cons q rest ih =>
    cases q with
    | mk a e =>
      by_cases ha : a = c
      · subst ha
        simp only [insertChild, if_true, eq_self_iff_true,
          List.mem_cons] at h
        rcases h with h2 | h2
        · exact Or.inr h2
        · exact Or.inl (List.mem_cons_of_mem _ h2)
      · simp only [insertChild, if_neg ha, List.mem_cons] at h
        rcases h with h2 | h2
        · exact Or.inl (h2 ▸ List.mem_cons_self _ _)
        · rcases ih h2 with h1 | h1
          · exact Or.inl (List.mem_cons_of_mem _ h1)
          · exact Or.inr h1

/-- Clearing a value slot preserves the dictionary well-formedness. -/
theorem wf_clearAt (k : List α) (e : Entry α V) (h : e.wf = true) :
    (clearAt e k).wf = true := by
  induction k generalizing e with
  | nil =>
    cases e with
    | mk cs v =>
      rw [wf_mk_iff] at h
      simp only [clearAt]
      rw [wf_mk_iff]
      exact h
  | cons c k ih =>
    cases e with
    | mk cs v =>
      rw [wf_mk_iff] at h
      simp only [clearAt]
      cases hl : lookupChild cs c with
      | none => rw [wf_mk_iff]; exact h
      | some ch =>
        rw [wf_mk_iff]
        constructor
        · rw [map_fst_insertChild_some _ hl]
          exact h.1
        · intro p hp
          rcases mem_insertChild (x := (c, clearAt ch k)) hp with h1 | h1
          · exact h.2 p h1
          · rw [h1]
            exact ih ch (h.2 (c, ch) (mem_of_lookupChild hl))

/-! ## Membership and uniqueness of the depth-first visit -/

omit [DecidableEq α] in
/-- Every key the visit yields extends the seed prefix. -/
theorem visit_shape : ∀ (e : Entry α V) (pfx k : List α) (v : V),
    (k, v) ∈ visit pfx e → ∃ s, k = pfx ++ s := by
  refine entry_ind (fun cs v0 ihm => ?_)
  intro pfx k v h
  simp only [visit, List.mem_append] at h
  rcases h with h | h
  · cases v0 with
    | some x =>
      simp only [List.mem_singleton, Prod.mk.injEq] at h
      exact ⟨[], by rw [h.1, List.append_nil]⟩
    | none => simp at h
  · clear v0
    induction cs with
    | nil => simp [visit.visitRev] at h
    | cons q rest ihl =>
      cases q with
      | mk c e0 =>
        simp only [visit.visitRev, List.mem_append] at h
        rcases h with h | h
        · exact ihl (fun p hp => ihm p (List.mem_cons_of_mem _ hp)) h
        · rcases ihm (c, e0) (List.mem_cons_self _ _) (pfx ++ [c]) k v h
            with ⟨s, hs⟩
          exact ⟨c :: s, by rw [hs]; simp⟩

omit [DecidableEq α] in
theorem mem_visitRev (pfx : List α) (cs : List (α × Entry α V))
    (k : List α) (v : V) :
    (k, v) ∈ visit.visitRev pfx cs ↔
      ∃ c ch, (c, ch) ∈ cs ∧ (k, v) ∈ visit (pfx ++ [c]) ch := by
  induction cs with
  | nil => simp [visit.visitRev]
  | cons q rest ih =>
    cases q with
    | mk c0 e0 =>
      simp only [visit.visitRev, List.mem_append, ih]
      constructor
      · rintro (⟨c, ch, hm, hv⟩ | hv)
        · exact ⟨c, ch, List.mem_cons_of_mem _ hm, hv⟩
        · exact ⟨c0, e0, List.mem_cons_self _ _, hv⟩
      · rintro ⟨c, ch, hm, hv⟩
        rcases List.mem_cons.1 hm with heq | hm
        · right
          rw [show c = c0 from congrArg Prod.fst heq,
            show ch = e0 from congrArg Prod.snd heq] at hv
          exact hv
        · exact Or.inl ⟨c, ch, hm, hv⟩

/-- The visit yields exactly the pairs `(prefix ++ suffix, v)` such that the
suffix is a valid path from the start entry ending in a set slot holding
`v`. -/
theorem mem_visit : ∀ (e : Entry α V), e.wf = true →
    ∀ (pfx k : List α) (v : V),
    ((k, v) ∈ visit pfx e ↔ ∃ s, k = pfx ++ s ∧ mapsTo e s v) := by
  refine entry_ind (fun cs v0 ihm => ?_)
  intro hwf pfx k v
  rw [wf_mk_iff] at hwf
  constructor
  · intro h
    simp only [visit, List.mem_append] at h
    rcases h with h | h
    · cases v0 with
      | some x =>
        simp only [List.mem_singleton, Prod.mk.injEq] at h
        exact ⟨[], by rw [h.1, List.append_nil], by
          rw [← h.2]; rfl⟩
      | none => simp at h
    · rcases (mem_visitRev pfx cs k v).1 h with ⟨c, ch, hm, hv⟩
      rcases (ihm (c, ch) hm (hwf.2 (c, ch) hm) (pfx ++ [c]) k v).1 hv
        with ⟨s, hk, hmt⟩
      refine ⟨c :: s, by rw [hk]; simp, ?_⟩
      unfold mapsTo at hmt ⊢
      rw [getValueAt_cons]
      simp only [children_mk, lookupChild_of_mem hwf.1 hm]
      exact hmt
  · rintro ⟨s, hk, hmt⟩
    unfold mapsTo at hmt
    cases s with
    | nil =>
      simp only [getValueAt_nil, value_mk] at hmt
      subst hmt
      rw [hk, List.append_nil]
      simp [visit]
    | cons c s =>
      rw [getValueAt_cons] at hmt
      simp only [children_mk] at hmt
      cases hl : lookupChild cs c with
      | none => rw [hl] at hmt; cases hmt
      | some ch =>
        rw [hl] at hmt
        have hm := mem_of_lookupChild hl
        have hv := (ihm (c, ch) hm (hwf.2 (c, ch) hm) (pfx ++ [c])
          (pfx ++ c :: s) v).2 ⟨s, by simp, hmt⟩
        simp only [visit, List.mem_append]
        right
        rw [hk]
        exact (mem_visitRev pfx cs _ v).2 ⟨c, ch, hm, hv⟩

omit [DecidableEq α] in
theorem visitRev_nodup (pfx : List α) (cs : List (α × Entry α V))
    (hnd : (cs.map Prod.fst).Nodup)
    (hm : ∀ p ∈ cs, ∀ pf : List α,
      ((visit pf p.2).map Prod.fst).Nodup) :
    ((visit.visitRev pfx cs).map Prod.fst).Nodup := by
  induction cs with
  | nil => simp [visit.visitRev]
  | cons q rest ih =>
    cases q with
    | mk c0 e0 =>
      simp only [List.map_cons, List.nodup_cons] at hnd
      simp only [visit.visitRev, List.map_append, List.nodup_append]
      refine ⟨ih hnd.2 (fun p hp => hm p (List.mem_cons_of_mem _ hp)), ?_, ?_⟩
      · exact hm (c0, e0) (List.mem_cons_self _ _) (pfx ++ [c0])
      · intro k hk1 hk2
        rcases List.mem_map.1 hk1 with ⟨p1, hp1, he1⟩
        rcases List.mem_map.1 hk2 with ⟨p2, hp2, he2⟩
        rcases (mem_visitRev pfx rest p1.1 p1.2).1 (by
          rw [show ((p1.1, p1.2) : List α × V) = p1 from rfl]
          exact hp1) with ⟨d, ch, hdm, hdv⟩
        rcases visit_shape ch (pfx ++ [d]) p1.1 p1.2 hdv with ⟨s1, hs1⟩
        rcases visit_shape e0 (pfx ++ [c0]) p2.1 p2.2 (by
          rw [show ((p2.1, p2.2) : List α × V) = p2 from rfl]
          exact hp2) with ⟨s2, hs2⟩
        rw [← he1] at he2
        rw [hs1] at he2
        rw [hs2] at he2
        simp only [List.append_assoc, List.singleton_append] at he2
        have hdc : d = c0 := by
          have := List.append_cancel_left he2.symm
          exact (List.cons.injEq _ _ _ _ ▸ this).1
        subst hdc
        exact hnd.1 (List.mem_map.2 ⟨(d, ch), hdm, rfl⟩)

/-- Each key appears at most once in the visit. -/
theorem visit_nodup : ∀ (e : Entry α V), e.wf = true →
    ∀ pfx : List α, ((visit pfx e).map Prod.fst).Nodup := by
  refine entry_ind (fun cs v0 ihm => ?_)
  intro hwf pfx
  rw [wf_mk_iff] at hwf
  have hrev := visitRev_nodup pfx cs hwf.1
    (fun p hp => ihm p hp (hwf.2 p hp))
  simp only [visit, List.map_append, List.nodup_append]
  refine ⟨?_, hrev, ?_⟩
  · cases v0 <;> simp
  · intro k hk1 hk2
    cases v0 with
    | none => simp at hk1
    | some x =>
      simp only [List.map_cons, List.map_nil, List.mem_singleton] at hk1
      subst hk1
      rcases List.mem_map.1 hk2 with ⟨p2, hp2, he2⟩
      rcases (mem_visitRev k cs p2.1 p2.2).1 (by
        rw [show ((p2.1, p2.2) : List α × V) = p2 from rfl]
        exact hp2) with ⟨d, ch, hdm, hdv⟩
      rcases visit_shape ch (k ++ [d]) p2.1 p2.2 hdv with ⟨s2, hs2⟩
      have hcontr := he2.symm.trans hs2
      have hlen := congrArg List.length hcontr
      simp only [List.length_append, List.length_singleton] at hlen
      omega

/-! ## Master equations for the mutating operations -/

/-- The operation `__setitem__` in closed form: the tree after `_find(create=True)` plus
the slot write, and the `_length` update decided by whether the key already
held a value. -/
theorem setItem_eq (t : Trie α V) (k : List α) (v : V) :
    setItem t k v = ⟨setAt (createPath t.root k) k v,
      if (getValueAt t.root k).isSome then t.length else t.length + 1⟩ := by
  rcases findEntry_createPath t.root k with ⟨d, hd, hv⟩
  unfold setItem
  simp only [setEntry, hd, Entry.hasValue, hv]

theorem getItem_setItem_self (t : Trie α V) (k : List α) (v : V) :
    getItem (setItem t k v) k = some v := by
  rw [setItem_eq, getItem_eq]
  exact getValueAt_setAt_self _ _ _

/-- The operation `transform` in closed form: the updater is fed the present value or the
default, and the write and `_length` update are those of `set`. -/
theorem transform_eq (t : Trie α V) (k : List α) (sel : V → V) (dflt : V) :
    transform t k sel dflt = ⟨setAt (createPath t.root k) k
        (sel ((getValueAt t.root k).getD dflt)),
      if (getValueAt t.root k).isSome then t.length else t.length + 1⟩ := by
  rcases findEntry_createPath t.root k with ⟨d, hd, hv⟩
  unfold transform
  simp only [setEntry, hd, Entry.hasValue, hv]
  cases hgv : getValueAt t.root k with
  | none => simp
  | some x => simp

/-- A successful `__delitem__` clears the slot at the key, decrements
`_length`, and requires that the slot was set. -/
theorem delItem_some {t : Trie α V} {k : List α} {t' : Trie α V}
    (h : delItem t k = some t') :
    t' = ⟨clearAt t.root k, t.length - 1⟩ ∧
      (getValueAt t.root k).isSome := by
  unfold delItem at h
  cases hf : findEntry t.root k with
  | none => rw [hf] at h; cases h
  | some e =>
    rw [hf] at h
    dsimp only at h
    by_cases hv : e.hasValue
    · rw [if_pos hv] at h
      refine ⟨(Option.some_inj.1 h).symm, ?_⟩
      unfold getValueAt
      rw [hf]
      simpa [Entry.hasValue] using hv
    · rw [if_neg hv] at h; cases h

/-! ## The claims -/

/-- C1: the claim states that `items(prefix)` and `keys(prefix)` on a prefix
that is not a valid path produce an empty sequence and raise no error.  In
the source, `items` catches the `KeyError` of `_find` and executes
`raise StopIteration` inside a generator; under PEP 479 (Python ≥ 3.7) this
surfaces to the consumer as a `RuntimeError` instead of ending the
generator, so the enumeration errors rather than being empty.  The embedding
records that error outcome as `none` (versus `some []` for an empty but
successful enumeration); at the doctest trie with the unmatched prefix
`"xyz"` the result is the error, not the empty sequence. -/
theorem items_unmatched_prefix_errors :
    items exampleTrie "xyz".toList = none ∧
    keysOf exampleTrie "xyz".toList = none ∧
    findEntry exampleTrie.root "xyz".toList = none :=
  ⟨rfl, rfl, rfl⟩

/-- C2: `set(k, v)` always succeeds (the embedding of `__setitem__` is a
total function, with the empty key writing the slot of the root itself), and
immediately afterwards `get(k)` returns `v` and `contains(k)` is true. -/
theorem set_then_get_contains (t : Trie α V) (k : List α) (v : V) :
    getItem (setItem t k v) k = some v ∧
    containsKey (setItem t k v) k = true ∧
    (setItem t [] v).root.value = some v := by
  refine ⟨getItem_setItem_self t k v, ?_, ?_⟩
  · rw [containsKey, getItem_setItem_self]
    rfl
  · rw [setItem_eq]
    rcases t.root with ⟨cs, v0⟩
    rfl

/-- C3: `get(k)` returns the value in the slot of the destination exactly when the
traversal path exists and the slot is set, and raises `KeyError` (the
`none` result) exactly when the path is missing or the slot is unset.  The
embedding of `__getitem__` is a pure function of the trie — the traversal
runs with `create=False` — so no tree or size mutation occurs. -/
theorem get_characterization (t : Trie α V) (k : List α) :
    (∀ v, getItem t k = some v ↔
      ∃ e, findEntry t.root k = some e ∧ e.value = some v) ∧
    (getItem t k = none ↔ (findEntry t.root k = none ∨
      ∃ e, findEntry t.root k = some e ∧ e.value = none)) := by
  rw [getItem_eq]
  unfold getValueAt
  cases hf : findEntry t.root k with
  | none => simp
  | some e =>
    cases he : e.value with
    | none => simp [he]
    | some x => simp [he]

/-- Witness for C3 at the doctest trie: `"she"` is mapped to `1`, and
`"sh"` exists only as an internal path, so `get` raises. -/
theorem get_characterization_witness :
    getItem exampleTrie "she".toList = some 1 ∧
    getItem exampleTrie "sh".toList = none :=
  ⟨((get_characterization exampleTrie "she".toList).1 1).mpr ⟨_, rfl, rfl⟩,
   (get_characterization exampleTrie "sh".toList).2.mpr
     (Or.inr ⟨_, rfl, rfl⟩)⟩

/-- C4: `delete(k)` raises `KeyError` when the traversal path is absent or
the destination slot is unset, and otherwise clears the slot, decrements
`_length` by one, and leaves `k` uncontained with `get(k)` raising. -/
theorem delete_characterization (t : Trie α V) (k : List α) :
    (findEntry t.root k = none → delItem t k = none) ∧
    (∀ e, findEntry t.root k = some e → e.value = none →
      delItem t k = none) ∧
    (∀ t', delItem t k = some t' →
      t'.length = t.length - 1 ∧ containsKey t' k = false ∧
      getItem t' k = none) := by
  refine ⟨?_, ?_, ?_⟩
  · intro h
    unfold delItem
    rw [h]
  · intro e he hv
    unfold delItem
    rw [he]
    dsimp only
    rw [if_neg (by simp [Entry.hasValue, hv])]
  · intro t' h
    rcases delItem_some h with ⟨ht', _⟩
    subst ht'
    refine ⟨rfl, ?_, ?_⟩
    · rw [containsKey, getItem_eq]
      have := getValueAt_clearAt_self t.root k
      rw [show ((⟨clearAt t.root k, t.length - 1⟩ : Trie α V)).root =
        clearAt t.root k from rfl, this]
      rfl
    · rw [getItem_eq]
      exact getValueAt_clearAt_self t.root k

/-- Witness for C4 at the doctest trie: `"shore"` has no path, `"sh"` is a
valueless branch point, and deleting `"shells"` leaves four keys with
`"shells"` gone. -/
theorem delete_characterization_witness :
    delItem exampleTrie "shore".toList = none ∧
    delItem exampleTrie "sh".toList = none ∧
    (((delItem exampleTrie "shells".toList).getD emptyTrie).length = 4 ∧
     containsKey ((delItem exampleTrie "shells".toList).getD emptyTrie)
       "shells".toList = false ∧
     getItem ((delItem exampleTrie "shells".toList).getD emptyTrie)
       "shells".toList = none) := by
  refine ⟨(delete_characterization exampleTrie "shore".toList).1 rfl,
    (delete_characterization exampleTrie "sh".toList).2.1 _ rfl rfl, ?_⟩
  have h3 := (delete_characterization exampleTrie "shells".toList).2.2
    ((delItem exampleTrie "shells".toList).getD emptyTrie) rfl
  exact ⟨h3.1.trans rfl, h3.2.1, h3.2.2⟩

/-- C5: outside the body of a mutating operation, `_length` equals the
number of reachable entries with a set value slot (equivalently, the number
of distinct keys currently mapped): the empty trie satisfies it, `set`,
a successful `delete` and `transform` preserve it, and re-setting an
already-present key leaves `len()` unchanged.  `get` and the enumerations
do not produce a trie at all in the embedding (they mutate nothing). -/
theorem length_invariant (t : Trie α V) (k k2 : List α) (v v2 : V)
    (sel : V → V) (dflt : V) (h : t.length = countValues t.root) :
    (emptyTrie : Trie α V).length = countValues (emptyTrie : Trie α V).root ∧
    (setItem t k v).length = countValues (setItem t k v).root ∧
    (∀ t', delItem t k = some t' → t'.length = countValues t'.root) ∧
    (transform t k sel dflt).length =
      countValues (transform t k sel dflt).root ∧
    (containsKey t k2 = true → (setItem t k2 v2).length = t.length) := by
  refine ⟨rfl, ?_, ?_, ?_, ?_⟩
  · rw [setItem_eq]
    have h1 := countValues_setAt (createPath t.root k) k v
    rw [getValueAt_createPath, countValues_createPath] at h1
    cases hgv : (getValueAt t.root k).isSome with
    | false => simp only [hgv, Bool.false_eq_true, if_false] at h1 ⊢; omega
    | true => simp only [hgv, if_true] at h1 ⊢; omega
  · intro t' ht'
    rcases delItem_some ht' with ⟨ht'', hsome⟩
    subst ht''
    have h1 := countValues_clearAt t.root k hsome
    dsimp only
    omega
  · rw [transform_eq]
    have h1 := countValues_setAt (createPath t.root k) k
      (sel ((getValueAt t.root k).getD dflt))
    rw [getValueAt_createPath, countValues_createPath] at h1
    cases hgv : (getValueAt t.root k).isSome with
    | false => simp only [hgv, Bool.false_eq_true, if_false] at h1 ⊢; omega
    | true => simp only [hgv, if_true] at h1 ⊢; omega
  · intro hc
    rw [setItem_eq]
    rw [containsKey, getItem_eq] at hc
    rw [if_pos hc]

/-- Witness for C5 at the doctest trie (whose `_length`, `5`, is the number
of set slots): overwriting `"today"` keeps the invariant, deleting `"she"`
keeps it, and re-setting the present key `"she"` leaves the length at `5`. -/
theorem length_invariant_witness :
    (setItem exampleTrie "today".toList 7).length =
      countValues (setItem exampleTrie "today".toList 7).root ∧
    ((delItem exampleTrie "she".toList).getD emptyTrie).length =
      countValues ((delItem exampleTrie "she".toList).getD emptyTrie).root ∧
    (setItem exampleTrie "she".toList 9).length = exampleTrie.length := by
  refine ⟨(length_invariant exampleTrie "today".toList "she".toList 7 9
      id 0 rfl).2.1, ?_, ?_⟩
  · exact (length_invariant exampleTrie "she".toList "she".toList 7 9
      id 0 rfl).2.2.1 _ rfl
  · exact (length_invariant exampleTrie "today".toList "she".toList 7 9
      id 0 rfl).2.2.2.2 rfl

/-- C6: `transform(k, updater, d)` leaves `get(k)` equal to the updater
applied to the prior value of `k` when mapped and to `d` otherwise, and it
increments `len()` by exactly one when `k` was unmapped while leaving it
unchanged when `k` was mapped. -/
theorem transform_semantics (t : Trie α V) (k : List α) (sel : V → V)
    (dflt : V) :
    getItem (transform t k sel dflt) k =
      some (sel ((getItem t k).getD dflt)) ∧
    (transform t k sel dflt).length =
      (if containsKey t k then t.length else t.length + 1) := by
  constructor
  · rw [transform_eq, getItem_eq, getItem_eq]
    exact getValueAt_setAt_self _ _ _
  · rw [transform_eq, containsKey, getItem_eq]

/-- Witness for C6 matching the examples given in the spec: on the doctest trie
(`today = 5`), `transform("today", old - 60, 0)` makes `get("today") = -55`
with the length unchanged, and on the absent key `"absent"`,
`transform(old + 1, 0)` makes the value `1` and grows the length to `6`. -/
theorem transform_semantics_witness :
    getItem (transform exampleTrie "today".toList (fun old => old - 60) 0)
      "today".toList = some (-55) ∧
    (transform exampleTrie "today".toList (fun old => old - 60) 0).length
      = 5 ∧
    getItem (transform exampleTrie "absent".toList (fun old => old + 1) 0)
      "absent".toList = some 1 ∧
    (transform exampleTrie "absent".toList (fun old => old + 1) 0).length
      = 6 := by
  have h1 := transform_semantics exampleTrie "today".toList
    (fun old => old - 60) 0
  have h2 := transform_semantics exampleTrie "absent".toList
    (fun old => old + 1) 0
  exact ⟨h1.1.trans (by rfl), h1.2.trans (by rfl),
    h2.1.trans (by rfl), h2.2.trans (by rfl)⟩

/-- C7: on a prefix whose path exists, `items(prefix)` succeeds and yields
exactly the depth-first sequence `visit prefix start` — the order of the
LIFO work list: the pair of an entry before all pairs of its descendants,
and children pushed later (i.e. later in dictionary order) visited sooner.
Its pairs are exactly those whose key extends the prefix by a valid valued
path, each key appearing exactly once; in particular `keys("sh")` on the
doctest trie yields exactly `["she", "shells"]`. -/
theorem prefix_enumeration (t : Trie α V) (pfx : List α)
    (start : Entry α V) (hfind : findEntry t.root pfx = some start)
    (hwf : start.wf = true) :
    items t pfx = some (visit pfx start) ∧
    (∀ k v, ((k, v) ∈ visit pfx start ↔
      ∃ s, k = pfx ++ s ∧ mapsTo start s v)) ∧
    ((visit pfx start).map Prod.fst).Nodup ∧
    keysOf exampleTrie "sh".toList =
      some ["she".toList, "shells".toList] := by
  refine ⟨items_eq_visit hfind, fun k v => mem_visit start hwf pfx k v,
    visit_nodup start hwf pfx, ?_⟩
  have hex : findEntry exampleTrie.root "sh".toList =
      some ((findEntry exampleTrie.root "sh".toList).getD emptyEntry) := rfl
  rw [keysOf, items_eq_visit hex]
  rfl

/-- Witness for C7 at the doctest trie with the prefix `"sh"`. -/
theorem prefix_enumeration_witness :
    items exampleTrie "sh".toList =
      some [("she".toList, (1 : Int)), ("shells".toList, 19)] ∧
    ("she".toList, (1 : Int)) ∈ visit "sh".toList
      ((findEntry exampleTrie.root "sh".toList).getD emptyEntry) := by
  have h := prefix_enumeration exampleTrie "sh".toList
    ((findEntry exampleTrie.root "sh".toList).getD emptyEntry) rfl rfl
  exact ⟨h.1.trans (by rfl), (h.2.1 _ _).mpr ⟨"e".toList, rfl, rfl⟩⟩

/-- C8: the value slot is a tagged option, so a set value — including the
null-like values of the value type itself, witnessed below at `none : Option Int` —
is always distinguishable from an unset slot: after `set(k, v)`, `contains`
is true and `get` returns `v`, while an existing entry whose slot was never
set reports no value. -/
theorem value_slot_distinguishable (t : Trie α V) (k : List α) (v : V) :
    containsKey (setItem t k v) k = true ∧
    getItem (setItem t k v) k = some v ∧
    ((findEntry t.root k).isSome = true → getValueAt t.root k = none →
      containsKey t k = false ∧ getItem t k = none) := by
  refine ⟨?_, getItem_setItem_self t k v, ?_⟩
  · rw [containsKey, getItem_setItem_self]
    rfl
  · intro _ h2
    rw [containsKey, getItem_eq, h2]
    exact ⟨rfl, rfl⟩

/-- Witness for C8: storing the null value `none : Option Int` is
distinguishable from absence, and the valueless branch point `"sh"` of the
doctest trie reports no value although its entry exists. -/
theorem value_slot_distinguishable_witness :
    containsKey (setItem (emptyTrie : Trie Char (Option Int))
      "x".toList none) "x".toList = true ∧
    getItem (setItem (emptyTrie : Trie Char (Option Int))
      "x".toList none) "x".toList = some none ∧
    (containsKey exampleTrie "sh".toList = false ∧
     getItem exampleTrie "sh".toList = none) :=
  ⟨(value_slot_distinguishable emptyTrie "x".toList none).1,
   (value_slot_distinguishable emptyTrie "x".toList none).2.1,
   (value_slot_distinguishable exampleTrie "sh".toList 0).2.2 rfl rfl⟩

/-- C9: a successful `delete(k)` is frame-preserving: any other key `p`
keeps its membership and value (even when `p` is a proper prefix of `k`,
e.g. `"she"` after deleting `"shells"`), `k` itself is no longer contained,
and the now-dead valueless entries left unpruned are invisible to the
enumeration: no pair with key `k` is yielded by the full enumeration. -/
theorem delete_frame (t : Trie α V) (k p : List α) (t' : Trie α V)
    (hne : p ≠ k) (hdel : delItem t k = some t')
    (hwf : t.root.wf = true) :
    getItem t' p = getItem t p ∧
    containsKey t' p = containsKey t p ∧
    containsKey t' k = false ∧
    (∀ l, items t' [] = some l → ∀ v, (k, v) ∉ l) := by
  rcases delItem_some hdel with ⟨ht', _⟩
  subst ht'
  have hget : getItem (⟨clearAt t.root k, t.length - 1⟩ : Trie α V) p =
      getItem t p := by
    rw [getItem_eq, getItem_eq]
    exact getValueAt_clearAt_ne t.root k p hne
  refine ⟨hget, by rw [containsKey, containsKey, hget], ?_, ?_⟩
  · rw [containsKey, getItem_eq]
    have := getValueAt_clearAt_self t.root k
    rw [show ((⟨clearAt t.root k, t.length - 1⟩ : Trie α V)).root =
      clearAt t.root k from rfl, this]
    rfl
  · intro l hl v hmem
    have hroot : findEntry (clearAt t.root k) [] =
        some (clearAt t.root k) := rfl
    rw [items_eq_visit hroot] at hl
    rw [← Option.some_inj.1 hl] at hmem
    have hwf' : (clearAt t.root k).wf = true := wf_clearAt k t.root hwf
    rcases (mem_visit (clearAt t.root k) hwf' [] k v).1 hmem
      with ⟨s, hs, hmt⟩
    rw [List.nil_append] at hs
    subst hs
    unfold mapsTo at hmt
    rw [getValueAt_clearAt_self] at hmt
    cases hmt

/-- Witness for C9 at the doctest trie: deleting `"shells"` keeps
`get("she") = 1`, removes `"shells"` from membership, and the full
enumeration of the result contains no pair keyed `"shells"`. -/
theorem delete_frame_witness :
    getItem ((delItem exampleTrie "shells".toList).getD emptyTrie)
      "she".toList = getItem exampleTrie "she".toList ∧
    containsKey ((delItem exampleTrie "shells".toList).getD emptyTrie)
      "shells".toList = false ∧
    ∀ l, items ((delItem exampleTrie "shells".toList).getD emptyTrie) []
      = some l → ("shells".toList, (19 : Int)) ∉ l := by
  have h := delete_frame exampleTrie "shells".toList "she".toList
    ((delItem exampleTrie "shells".toList).getD emptyTrie)
    (by decide) rfl rfl
  exact ⟨h.1, h.2.2.1, fun l hl => h.2.2.2 l hl 19⟩

/-- C10: if the updater passed to `transform` raises, the caller observes
the trie exactly as before the call — `transformInterrupted` is the state
after `_find(key, create=True)` ran but before the value write — because
the slot write and the length increment happen only after the updater
returns: the length is unchanged and every key (including `k`) keeps its
`get` result and membership; the path entries created by the traversal are
valueless and hence invisible. -/
theorem transform_updater_exception_safe (t : Trie α V) (k : List α) :
    (transformInterrupted t k).length = t.length ∧
    (∀ p, getItem (transformInterrupted t k) p = getItem t p) ∧
    (∀ p, containsKey (transformInterrupted t k) p = containsKey t p) := by
  have hget : ∀ p, getItem (transformInterrupted t k) p = getItem t p := by
    intro p
    rw [getItem_eq, getItem_eq]
    exact getValueAt_createPath t.root k p
  exact ⟨rfl, hget, fun p => by rw [containsKey, containsKey, hget p]⟩

end TrieSpec
